import Mathlib

/-!
Verification of the loose-object core of a minimal content-addressable
object store (a git-style blob/tree store written in Rust).

The development shallowly embeds the two source files:

* `src/sha1.rs` — a from-scratch SHA-1 digest engine (`sha1`);
* `src/main.rs` — the object codec (`encode_blob`, `encode_tree`,
  `decode_object`), the recursive tree builder (`read_tree_from_dir`)
  and the staging-index parser (`read_index`).

Bytes are modelled as `Nat` values (< 256 where produced by the code),
byte strings as `List Nat`.  Machine integers are `Nat`/`Int` with the
wrap-around written out explicitly (`% 2^32`, `% 2^64`).  Fallible Rust
code returns a result inductive with an explicit `panic` constructor so
that `expect`/`unimplemented!`/out-of-bounds slicing are observable
outcomes, never silently identified with typed errors.
-/

set_option maxRecDepth 8192

/-! ## SHA-1 digest engine (src/sha1.rs) -/

/-- 32-bit wrap-around, the `u32` wrapping arithmetic of the source. -/
def u32 (x : Nat) : Nat := x % 4294967296

/-- `u32::rotate_left`: valid for `x < 2^32` and `0 < s < 32`, the only
uses in the source (`s` ∈ {1, 5, 30}). -/
def rotl (s x : Nat) : Nat := ((x <<< s) % 4294967296) ||| (x >>> (32 - s))

/-- The number of `0x00` padding bytes `sha1` appends after the `0x80`
byte.  Mirrors the source's `i64` arithmetic:
`padding_needed = 448 - ((message_len_in_bits + 1).rem_euclid(512))`,
re-computed as `(512 - …) + 448` when negative, then `-= 7` and `/ 8`.
`message_len_in_bits` is `usize` arithmetic, hence the `% 2^64`.  Both
branches are non-negative at the division, so `Int.toNat` before the
division by 8 agrees with the source's `i64` division. -/
def bytePaddingNeeded (n : Nat) : Nat :=
  let m : Int := (((8 * n) % (2 ^ 64) + 1) % 512 : Nat)
  let p : Int := if 448 - m < 0 then (512 - m) + 448 else 448 - m
  (p - 7).toNat / 8

/-- A 64-bit value as 8 big-endian bytes (`usize::to_be_bytes`). -/
def u64BeBytes (x : Nat) : List Nat :=
  [x / 2 ^ 56 % 256, x / 2 ^ 48 % 256, x / 2 ^ 40 % 256, x / 2 ^ 32 % 256,
   x / 2 ^ 24 % 256, x / 2 ^ 16 % 256, x / 2 ^ 8 % 256, x % 256]

/-- The padding step of `sha1`: append `0x80`, then the zero bytes, then
the original length in bits as a 64-bit big-endian integer. -/
def sha1Pad (data : List Nat) : List Nat :=
  data ++ [0x80] ++ List.replicate (bytePaddingNeeded data.length) 0
       ++ u64BeBytes ((8 * data.length) % (2 ^ 64))

/-- Reinterpret the padded bytes as 32-bit big-endian words (the source's
pointer cast followed by `to_be`). -/
def beWords : List Nat → List Nat
  | a :: b :: c :: d :: rest => (((a * 256 + b) * 256 + c) * 256 + d) :: beWords rest
  | _ => []

/-- Split the word sequence into 16-word blocks (`chunks_exact_mut(16)`);
the padded length is always a multiple of 64 bytes so nothing is dropped. -/
def chunks16 : List Nat → List (List Nat)
  | w0 :: w1 :: w2 :: w3 :: w4 :: w5 :: w6 :: w7 ::
    w8 :: w9 :: w10 :: w11 :: w12 :: w13 :: w14 :: w15 :: rest =>
      [w0, w1, w2, w3, w4, w5, w6, w7, w8, w9, w10, w11, w12, w13, w14, w15]
        :: chunks16 rest
  | _ => []

/-- The five 32-bit state words `h[0]..h[4]`. -/
structure Sha1State where
  h0 : Nat
  h1 : Nat
  h2 : Nat
  h3 : Nat
  h4 : Nat

/-- The 80-word message schedule: the 16 block words extended by
`w[i] = rotl32(w[i-3] ^ w[i-8] ^ w[i-14] ^ w[i-16], 1)` for `i` in 16..=79. -/
def scheduleWords (chunk : List Nat) : Array Nat :=
  (List.range 64).foldl
    (fun w _ =>
      w.push (rotl 1 ((w.getD (w.size - 3) 0) ^^^ (w.getD (w.size - 8) 0) ^^^
                      (w.getD (w.size - 14) 0) ^^^ (w.getD (w.size - 16) 0))))
    chunk.toArray

/-- One round of the SHA-1 compression main loop, with the four
round-dependent `(f, k)` pairs over 0..=19, 20..=39, 40..=59, 60..=79. -/
def sha1Round : Nat × Nat × Nat × Nat × Nat → Nat × Nat → Nat × Nat × Nat × Nat × Nat
  | (a, b, c, d, e), (idx, word) =>
    let f :=
      if idx ≤ 19 then (b &&& c) ||| ((b ^^^ 0xFFFFFFFF) &&& d)
      else if idx ≤ 39 then b ^^^ c ^^^ d
      else if idx ≤ 59 then (b &&& c) ||| (b &&& d) ||| (c &&& d)
      else b ^^^ c ^^^ d
    let k :=
      if idx ≤ 19 then 0x5A827999
      else if idx ≤ 39 then 0x6ED9EBA1
      else if idx ≤ 59 then 0x8F1BBCDC
      else 0xCA62C1D6
    let temp := u32 (rotl 5 a + f + e + k + word)
    (temp, a, rotl 30 b, c, d)

/-- Process one 512-bit block: run the 80 rounds and accumulate into the
state with 32-bit wrap-around addition. -/
def processChunk (s : Sha1State) (chunk : List Nat) : Sha1State :=
  let w := scheduleWords chunk
  match w.toList.enum.foldl sha1Round (s.h0, s.h1, s.h2, s.h3, s.h4) with
  | (a, b, c, d, e) =>
    ⟨u32 (s.h0 + a), u32 (s.h1 + b), u32 (s.h2 + c), u32 (s.h3 + d), u32 (s.h4 + e)⟩

/-- The five state words as 20 bytes, big-endian, in order. -/
def digestBytes (s : Sha1State) : List Nat :=
  [s.h0 / 2 ^ 24 % 256, s.h0 / 2 ^ 16 % 256, s.h0 / 2 ^ 8 % 256, s.h0 % 256,
   s.h1 / 2 ^ 24 % 256, s.h1 / 2 ^ 16 % 256, s.h1 / 2 ^ 8 % 256, s.h1 % 256,
   s.h2 / 2 ^ 24 % 256, s.h2 / 2 ^ 16 % 256, s.h2 / 2 ^ 8 % 256, s.h2 % 256,
   s.h3 / 2 ^ 24 % 256, s.h3 / 2 ^ 16 % 256, s.h3 / 2 ^ 8 % 256, s.h3 % 256,
   s.h4 / 2 ^ 24 % 256, s.h4 / 2 ^ 16 % 256, s.h4 / 2 ^ 8 % 256, s.h4 % 256]

/-- `sha1` from src/sha1.rs: pad, split into 512-bit blocks, compress,
emit the final state big-endian. -/
def sha1 (data : List Nat) : List Nat :=
  let padded := sha1Pad data
  let final := (chunks16 (beWords padded)).foldl processChunk
      ⟨0x67452301, 0xEFCDAB89, 0x98BADCFE, 0x10325476, 0xC3D2E1F0⟩
  digestBytes final

/-- Arithmetic characterization of the padding count: `bytePaddingNeeded n`
is `((448 + 512 - (8*n + 8) % 512) % 512) / 8`. -/
theorem bytePaddingNeeded_eq (n : Nat) :
    bytePaddingNeeded n = ((448 + 512 - (8 * n + 8) % 512) % 512) / 8 := by
  have h64 : (8 * n) % 2 ^ 64 % 512 = 8 * n % 512 :=
    Nat.mod_mod_of_dvd _ (by norm_num)
  simp only [bytePaddingNeeded]
  generalize hA : (8 * n) % 2 ^ 64 = A at h64 ⊢
  have h8 : (A + 1) % 512 % 8 = 1 := by omega
  split <;> omega

/-- The ASCII bytes of "The quick brown fox jumps over the lazy dog". -/
def foxBytes : List Nat :=
  [84, 104, 101, 32, 113, 117, 105, 99, 107, 32, 98, 114, 111, 119, 110, 32,
   102, 111, 120, 32, 106, 117, 109, 112, 115, 32, 111, 118, 101, 114, 32,
   116, 104, 101, 32, 108, 97, 122, 121, 32, 100, 111, 103]

/-- C1: `sha1` is deterministic (a pure function of its input bytes) and
always returns exactly 20 bytes; the digest of the empty input is
da39a3ee5e6b4b0d3255bfef95601890afd80709 and the digest of the ASCII bytes
of "The quick brown fox jumps over the lazy dog" is
2fd4e1c67a2d28fced849ee1bb76e7391b93eb12. -/
theorem sha1_deterministic_20_bytes_and_vectors :
    (∀ b₁ b₂ : List Nat, b₁ = b₂ → sha1 b₁ = sha1 b₂) ∧
    (∀ b : List Nat, (sha1 b).length = 20) ∧
    sha1 [] = [0xda, 0x39, 0xa3, 0xee, 0x5e, 0x6b, 0x4b, 0x0d, 0x32, 0x55,
               0xbf, 0xef, 0x95, 0x60, 0x18, 0x90, 0xaf, 0xd8, 0x07, 0x09] ∧
    sha1 foxBytes = [0x2f, 0xd4, 0xe1, 0xc6, 0x7a, 0x2d, 0x28, 0xfc, 0xed,
                     0x84, 0x9e, 0xe1, 0xbb, 0x76, 0xe7, 0x39, 0x1b, 0x93,
                     0xeb, 0x12] := by
  refine ⟨fun b₁ b₂ h => h ▸ rfl, fun b => ?_, by decide, by decide⟩
  simp [sha1, digestBytes]

/-- Witness for C1 at concrete inputs. -/
theorem sha1_deterministic_20_bytes_and_vectors_witness :
    sha1 [65] = sha1 [65] ∧ (sha1 [65]).length = 20 :=
  ⟨sha1_deterministic_20_bytes_and_vectors.1 [65] [65] rfl,
   sha1_deterministic_20_bytes_and_vectors.2.1 [65]⟩

/-- C2: the padding step appends exactly one `0x80` byte, then the minimum
number of `0x00` bytes making the bit length of message + `0x80` + zeros
congruent to 448 mod 512 (wrap-around included), then the original length
in bits as a 64-bit big-endian integer; the padded length is a multiple
of 64 bytes. -/
theorem sha1Pad_spec (b : List Nat) :
    sha1Pad b = b ++ [0x80] ++ List.replicate (bytePaddingNeeded b.length) 0
        ++ u64BeBytes ((8 * b.length) % (2 ^ 64)) ∧
    (8 * (b.length + 1 + bytePaddingNeeded b.length)) % 512 = 448 ∧
    (∀ j, j < bytePaddingNeeded b.length → (8 * (b.length + 1 + j)) % 512 ≠ 448) ∧
    (sha1Pad b).length % 64 = 0 := by
  have hlen : (sha1Pad b).length = b.length + 1 + bytePaddingNeeded b.length + 8 := by
    simp [sha1Pad, u64BeBytes]
    omega
  have hk := bytePaddingNeeded_eq b.length
  refine ⟨rfl, by omega, fun j hj => by omega, by omega⟩

/-- Witness for C2 at the empty message: 55 zero bytes, total 64 bytes. -/
theorem sha1Pad_spec_witness :
    sha1Pad [] = [] ++ [0x80] ++ List.replicate (bytePaddingNeeded 0) 0
        ++ u64BeBytes ((8 * 0) % (2 ^ 64)) ∧
    (8 * (0 + 1 + bytePaddingNeeded 0)) % 512 = 448 ∧
    (sha1Pad []).length % 64 = 0 :=
  ⟨(sha1Pad_spec []).1, (sha1Pad_spec []).2.1, (sha1Pad_spec []).2.2.2⟩

/-! ## Object codec (src/main.rs) -/

/-- `Iterator::position`: index of the first element satisfying `p`. -/
def position (p : Nat → Bool) : List Nat → Option Nat
  | [] => none
  | x :: xs => if p x then some 0 else (position p xs).map (· + 1)

/-- `u8::is_ascii_digit`. -/
def isAsciiDigit (x : Nat) : Bool := 48 ≤ x && x ≤ 57

/-- `str::parse::<u64>()` on a string of ASCII digits: fails on the empty
string and on overflow past `u64::MAX`, succeeds otherwise.  (The callers
only reach this with bytes already checked to be ASCII digits.) -/
def parseU64 (digits : List Nat) : Option Nat :=
  if digits.isEmpty then none
  else if digits.foldl (fun a d => a * 10 + (d - 48)) 0 < 2 ^ 64 then
    some (digits.foldl (fun a d => a * 10 + (d - 48)) 0)
  else none

/-- The ASCII decimal representation of `n` (`format!("{}", n)`). -/
def decimalDigits (n : Nat) : List Nat :=
  if h : n < 10 then [48 + n]
  else decimalDigits (n / 10) ++ [48 + n % 10]
decreasing_by exact Nat.div_lt_self (by omega) (by omega)

/-- The ASCII octal representation of `n` (`format!("{:o}", n)`). -/
def octalDigits (n : Nat) : List Nat :=
  if h : n < 8 then [48 + n]
  else octalDigits (n / 8) ++ [48 + n % 8]
decreasing_by exact Nat.div_lt_self (by omega) (by omega)

/-- A UTF-8 continuation byte `0x80..=0xBF`. -/
def isCont (b : Nat) : Bool := 128 ≤ b && b ≤ 191

/-- Validity of a byte string as UTF-8, as enforced by
`std::str::from_utf8` (RFC 3629: no overlongs, no surrogates,
nothing above U+10FFFF). -/
def isValidUtf8 : List Nat → Bool
  | [] => true
  | b :: rest =>
    if b ≤ 0x7F then isValidUtf8 rest
    else if b < 0xC2 then false
    else if b ≤ 0xDF then
      match rest with
      | c1 :: rest1 => isCont c1 && isValidUtf8 rest1
      | [] => false
    else if b ≤ 0xEF then
      match rest with
      | c1 :: c2 :: rest2 =>
        (if b = 0xE0 then decide (0xA0 ≤ c1 ∧ c1 ≤ 0xBF)
         else if b = 0xED then decide (0x80 ≤ c1 ∧ c1 ≤ 0x9F)
         else isCont c1) && isCont c2 && isValidUtf8 rest2
      | _ => false
    else if b ≤ 0xF4 then
      match rest with
      | c1 :: c2 :: c3 :: rest3 =>
        (if b = 0xF0 then decide (0x90 ≤ c1 ∧ c1 ≤ 0xBF)
         else if b = 0xF4 then decide (0x80 ≤ c1 ∧ c1 ≤ 0x8F)
         else isCont c1) && isCont c2 && isCont c3 && isValidUtf8 rest3
      | _ => false
    else false

/-- A tree entry: a 32-bit mode, a name (UTF-8 bytes), a 20-byte hash. -/
structure TreeEntry where
  mode : Nat
  name : List Nat
  objectHash : List Nat
deriving DecidableEq

/-- `GitObject`, restricted to the variants this core ever constructs.
The source enum also lists `Commit` and `Tag`, but they are never built:
`decode_object` hits `unimplemented!()` (a panic) before constructing
either, and `encode_object` likewise never receives them. -/
inductive GitObject where
  | blob (data : List Nat)
  | tree (entries : List TreeEntry)
deriving DecidableEq

/-- The `ReadObjectError` variants reachable from the byte-level parser. -/
inductive ReadObjectError where
  | corruptedObject (context : String)
  | unknownObjectKind
  | invalidObjectSize
  | corruptedTreeEntry
  | treeEntryMode
  | treeEntryName
  | corruptedTreeEntrySha1
deriving DecidableEq

/-- Outcome of `decode_object` on a decompressed byte buffer: a decoded
object, a typed error, or a Rust panic (`expect` / `unimplemented!`). -/
inductive DecodeResult where
  | ok (obj : GitObject)
  | err (e : ReadObjectError)
  | panic
deriving DecidableEq

/-- `encode_blob`: `"blob <len>\0<bytes>"`. -/
def encodeBlob (blob : List Nat) : List Nat :=
  [98, 108, 111, 98] ++ [32] ++ decimalDigits blob.length ++ [0] ++ blob

/-- The text part `"<mode-octal> <name>"` of one encoded tree entry. -/
def treeEntryText (e : TreeEntry) : List Nat :=
  octalDigits e.mode ++ [32] ++ e.name

/-- The payload size computed by `encode_tree`:
`21 * entries.len() + Σ |"{:o} {}"|`. -/
def encodeTreeSize (entries : List TreeEntry) : Nat :=
  21 * entries.length + (entries.map (fun e => (treeEntryText e).length)).sum

/-- The concatenated tree payload: per entry `"<mode> <name>\0"` then the
raw 20 hash bytes. -/
def treePayload : List TreeEntry → List Nat
  | [] => []
  | e :: rest => treeEntryText e ++ [0] ++ e.objectHash ++ treePayload rest

/-- `encode_tree`: `"tree <size>\0"` followed by the entry payload. -/
def encodeTree (entries : List TreeEntry) : List Nat :=
  [116, 114, 101, 101] ++ [32] ++ decimalDigits (encodeTreeSize entries) ++ [0]
    ++ treePayload entries

/-- `encode_object` over the constructible variants. -/
def encodeObject : GitObject → List Nat
  | .blob c => encodeBlob c
  | .tree es => encodeTree es

/-- The tree-entry loop of `decode_object`: find the space, parse the mode
as base-8 `u32`, find the NUL, check the name is UTF-8, take 20 hash
bytes; continue while more than 20 bytes remained.  `parse` failures on
mode (not UTF-8 / not octal / overflow) map to `TreeEntryMode`. -/
def parseTreeEntries (rest : List Nat) (acc : List TreeEntry) : DecodeResult :=
  match position (fun x => x == 32) rest with
  | none => .err .corruptedTreeEntry
  | some spaceIdx =>
    let modeBytes := rest.take spaceIdx
    let modeCore := if modeBytes.head? = some 43 then modeBytes.tail else modeBytes
    if modeCore.isEmpty = false ∧ modeCore.all (fun d => 48 ≤ d && d ≤ 55) = true ∧
        modeCore.foldl (fun a d => a * 8 + (d - 48)) 0 < 2 ^ 32 then
      if rest.length < spaceIdx + 1 then .err .corruptedTreeEntry
      else
        let rest1 := rest.drop (spaceIdx + 1)
        match position (fun x => x == 0) rest1 with
        | none => .err .corruptedTreeEntry
        | some nulIdx =>
          let nameBytes := rest1.take nulIdx
          if isValidUtf8 nameBytes = false then .err .treeEntryName
          else if rest1.length < nulIdx + 1 then .err .corruptedTreeEntry
          else
            let rest2 := rest1.drop (nulIdx + 1)
            if rest2.length < 20 then .err .corruptedTreeEntrySha1
            else
              let entry : TreeEntry :=
                ⟨modeCore.foldl (fun a d => a * 8 + (d - 48)) 0, nameBytes, rest2.take 20⟩
              if _hgo : 20 < rest2.length then
                parseTreeEntries (rest2.drop 20) (acc ++ [entry])
              else .ok (.tree (acc ++ [entry]))
    else .err .treeEntryMode
termination_by rest.length
decreasing_by
  simp only [List.length_drop] at *
  omega

/-- `decode_object` on the decompressed bytes: split kind at the first
space, parse the decimal size up to the NUL, slice exactly `size` payload
bytes, then dispatch on the kind.  The empty or overflowing size field
hits `expect` (panic); `commit`/`tag` hit `unimplemented!()` (panic). -/
def decodeObject (bytes : List Nat) : DecodeResult :=
  if bytes.length ≤ 1 then .err (.corruptedObject "too short")
  else
    match position (fun x => x == 32) bytes with
    | none => .err (.corruptedObject "no space")
    | some spaceIdx =>
      let objectType := bytes.take spaceIdx
      let rest := bytes.drop (spaceIdx + 1)
      match position (fun x => !isAsciiDigit x) rest with
      | none => .err (.corruptedObject "only ascii digits???")
      | some nulIdx =>
        if rest[nulIdx]? ≠ some 0 then
          .err (.corruptedObject "byte after digits isn't null")
        else
          match parseU64 (rest.take nulIdx) with
          | none => .panic
          | some size =>
            let rest2 := rest.drop (nulIdx + 1)
            if rest2.length < size then .err .invalidObjectSize
            else
              let payload := rest2.take size
              if objectType = [98, 108, 111, 98] then .ok (.blob payload)
              else if objectType = [99, 111, 109, 109, 105, 116] then .panic
              else if objectType = [116, 97, 103] then .panic
              else if objectType = [116, 114, 101, 101] then parseTreeEntries payload []
              else .err .unknownObjectKind

/-! ### Codec helper lemmas -/

theorem position_append_cons_true (p : Nat → Bool) (K : List Nat) (y : Nat)
    (rest : List Nat) (hK : ∀ x ∈ K, p x = false) (hy : p y = true) :
    position p (K ++ y :: rest) = some K.length := by
  induction K with
  | nil => simp [position, hy]
  | cons a K ih =>
    have ha : p a = false := hK a (by simp)
    simp [position, ha, ih (fun x hx => hK x (by simp [hx]))]

theorem decimalDigits_ne_nil (n : Nat) : decimalDigits n ≠ [] := by
  rw [decimalDigits]
  split <;> simp

theorem decimalDigits_all_digit (n : Nat) :
    ∀ x ∈ decimalDigits n, isAsciiDigit x = true := by
  induction n using Nat.strong_induction_on with
  | _ n ih =>
    rw [decimalDigits]
    split <;> rename_i h
    · intro x hx
      simp at hx
      simp [hx, isAsciiDigit]
      omega
    · intro x hx
      simp at hx
      rcases hx with hx | hx
      · exact ih (n / 10) (Nat.div_lt_self (by omega) (by omega)) x hx
      · simp [hx, isAsciiDigit]
        omega

theorem decimalDigits_foldl (n : Nat) :
    (decimalDigits n).foldl (fun a d => a * 10 + (d - 48)) 0 = n := by
  suffices h : ∀ m a, (decimalDigits m).foldl (fun a d => a * 10 + (d - 48)) a
      = a * 10 ^ (decimalDigits m).length + m by
    have := h n 0
    simpa using this
  intro m
  induction m using Nat.strong_induction_on with
  | _ m ih =>
    intro a
    rw [decimalDigits]
    split <;> rename_i h
    · simp
    · have hrec := ih (m / 10) (Nat.div_lt_self (by omega) (by omega))
      simp [hrec (a := a), pow_succ]
      have hm : m / 10 * 10 + m % 10 = m := by omega
      have h2 : (a * 10 ^ (decimalDigits (m / 10)).length + m / 10) * 10 + m % 10
          = a * (10 ^ (decimalDigits (m / 10)).length * 10)
            + (m / 10 * 10 + m % 10) := by ring
      rw [h2, hm]

theorem octalDigits_ne_nil (n : Nat) : octalDigits n ≠ [] := by
  rw [octalDigits]
  split <;> simp

theorem octalDigits_all_octal (n : Nat) :
    ∀ x ∈ octalDigits n, (48 ≤ x && x ≤ 55) = true := by
  induction n using Nat.strong_induction_on with
  | _ n ih =>
    rw [octalDigits]
    split <;> rename_i h
    · intro x hx
      simp at hx
      simp [hx]
      omega
    · intro x hx
      simp at hx
      rcases hx with hx | hx
      · exact ih (n / 8) (Nat.div_lt_self (by omega) (by omega)) x hx
      · simp [hx]
        omega

theorem octalDigits_foldl (n : Nat) :
    (octalDigits n).foldl (fun a d => a * 8 + (d - 48)) 0 = n := by
  suffices h : ∀ m a, (octalDigits m).foldl (fun a d => a * 8 + (d - 48)) a
      = a * 8 ^ (octalDigits m).length + m by
    have := h n 0
    simpa using this
  intro m
  induction m using Nat.strong_induction_on with
  | _ m ih =>
    intro a
    rw [octalDigits]
    split <;> rename_i h
    · simp
    · have hrec := ih (m / 8) (Nat.div_lt_self (by omega) (by omega))
      simp [hrec (a := a), pow_succ]
      have hm : m / 8 * 8 + m % 8 = m := by omega
      have h2 : (a * 8 ^ (octalDigits (m / 8)).length + m / 8) * 8 + m % 8
          = a * (8 ^ (octalDigits (m / 8)).length * 8)
            + (m / 8 * 8 + m % 8) := by ring
      rw [h2, hm]

/-- Reduction of `decode_object` on a well-formed framing
`<kind> <digits>\0<rest>`: the header is consumed and the kind dispatch
runs on exactly the declared number of payload bytes. -/
theorem decodeObject_framed (K digits R : List Nat)
    (hK : ∀ x ∈ K, (x == 32) = false) (hne : digits ≠ [])
    (hdig : ∀ x ∈ digits, isAsciiDigit x = true)
    (hval : digits.foldl (fun a d => a * 10 + (d - 48)) 0 < 2 ^ 64) :
    decodeObject (K ++ [32] ++ digits ++ [0] ++ R) =
      (if R.length < digits.foldl (fun a d => a * 10 + (d - 48)) 0 then
        DecodeResult.err .invalidObjectSize
      else
        let payload := R.take (digits.foldl (fun a d => a * 10 + (d - 48)) 0)
        if K = [98, 108, 111, 98] then .ok (.blob payload)
        else if K = [99, 111, 109, 109, 105, 116] then .panic
        else if K = [116, 97, 103] then .panic
        else if K = [116, 114, 101, 101] then parseTreeEntries payload []
        else .err .unknownObjectKind) := by
  have hlen : (K ++ [32] ++ digits ++ [0] ++ R).length
      = K.length + 1 + digits.length + 1 + R.length := by simp; omega
  have hlen2 : ¬ (K ++ [32] ++ digits ++ [0] ++ R).length ≤ 1 := by
    have := List.length_pos.mpr hne
    omega
  have hspace : position (fun x => x == 32) (K ++ [32] ++ digits ++ [0] ++ R)
      = some K.length := by
    have : K ++ [32] ++ digits ++ [0] ++ R = K ++ 32 :: (digits ++ [0] ++ R) := by
      simp
    rw [this]
    exact position_append_cons_true _ _ _ _ hK (by decide)
  have htype : (K ++ [32] ++ digits ++ [0] ++ R).take K.length = K := by
    have : K ++ [32] ++ digits ++ [0] ++ R = K ++ ([32] ++ digits ++ [0] ++ R) := by
      simp
    rw [this]
    exact List.take_left' rfl
  have hrest : (K ++ [32] ++ digits ++ [0] ++ R).drop (K.length + 1)
      = digits ++ [0] ++ R := by
    have : K ++ [32] ++ digits ++ [0] ++ R = (K ++ [32]) ++ (digits ++ [0] ++ R) := by
      simp
    rw [this]
    exact List.drop_left' (by simp)
  have hdigitscan : position (fun x => !isAsciiDigit x) (digits ++ [0] ++ R)
      = some digits.length := by
    have : digits ++ [0] ++ R = digits ++ 0 :: R := by simp
    rw [this]
    exact position_append_cons_true _ _ _ _
      (fun x hx => by simp [hdig x hx]) (by decide)
  have hnul : (digits ++ [0] ++ R)[digits.length]? = some 0 := by
    have : digits ++ [0] ++ R = digits ++ 0 :: R := by simp
    rw [this, List.getElem?_append_right (Nat.le_refl _)]
    simp
  have hdigits : (digits ++ [0] ++ R).take digits.length = digits := by
    have : digits ++ [0] ++ R = digits ++ ([0] ++ R) := by simp
    rw [this]
    exact List.take_left' rfl
  have hpayload : (digits ++ [0] ++ R).drop (digits.length + 1) = R := by
    have : digits ++ [0] ++ R = (digits ++ [0]) ++ R := by simp
    rw [this]
    exact List.drop_left' (by simp)
  have hparse : parseU64 digits
      = some (digits.foldl (fun a d => a * 10 + (d - 48)) 0) := by
    rw [parseU64, if_neg (by simpa using hne), if_pos hval]
  rw [decodeObject]
  simp only [hlen2, if_false, hspace, htype, hrest, hdigitscan, hnul, hdigits,
    hpayload, hparse]
  simp

/-- C3: decoding the canonical framing produced by encoding a blob
(`"blob <len>\0<bytes>"`) succeeds and returns exactly the original
bytes.  The length bound is the `usize`/`u64` range every Rust byte
buffer satisfies. -/
theorem blob_roundtrip (c : List Nat) (hc : c.length < 2 ^ 64) :
    decodeObject (encodeBlob c) = .ok (.blob c) := by
  have h := decodeObject_framed [98, 108, 111, 98] (decimalDigits c.length) c
    (by decide) (decimalDigits_ne_nil _) (decimalDigits_all_digit _)
    (by rw [decimalDigits_foldl]; exact hc)
  have he : encodeBlob c
      = [98, 108, 111, 98] ++ [32] ++ decimalDigits c.length ++ [0] ++ c := rfl
  rw [he, h]
  simp [decimalDigits_foldl]

/-- Witness for C3 at the one-byte blob "A". -/
theorem blob_roundtrip_witness :
    ([65] : List Nat).length < 2 ^ 64 ∧
    decodeObject (encodeBlob [65]) = .ok (.blob [65]) :=
  ⟨by norm_num, blob_roundtrip [65] (by norm_num)⟩

/-- C10: a well-formed blob framing followed by arbitrary surplus bytes
decodes successfully to the object built from exactly the declared number
of payload bytes; the surplus after the declared size is silently
ignored. -/
theorem decode_ignores_trailing_bytes (digits payload surplus : List Nat)
    (hne : digits ≠ []) (hdig : ∀ x ∈ digits, isAsciiDigit x = true)
    (hval : digits.foldl (fun a d => a * 10 + (d - 48)) 0 < 2 ^ 64)
    (hlen : payload.length = digits.foldl (fun a d => a * 10 + (d - 48)) 0) :
    decodeObject ([98, 108, 111, 98] ++ [32] ++ digits ++ [0] ++ (payload ++ surplus))
      = .ok (.blob payload) := by
  rw [decodeObject_framed _ _ _ (by decide) hne hdig hval]
  have h1 : ¬ (payload ++ surplus).length
      < digits.foldl (fun a d => a * 10 + (d - 48)) 0 := by
    simp
    omega
  have h2 : (payload ++ surplus).take
      (digits.foldl (fun a d => a * 10 + (d - 48)) 0) = payload :=
    List.take_left' hlen
  simp [h1, h2]
  omega

/-- Witness for C10: `"blob 1\0AB"` decodes to the blob "A", ignoring "B". -/
theorem decode_ignores_trailing_bytes_witness :
    decodeObject ([98, 108, 111, 98] ++ [32] ++ [49] ++ [0] ++ ([65] ++ [66]))
      = .ok (.blob [65]) :=
  decode_ignores_trailing_bytes [49] [65] [66] (by decide) (by decide)
    (by norm_num) (by decide)

/-- C6 (amended): on a framing whose kind is `commit` or `tag` with a
well-formed size field and enough payload bytes, `decode_object` reaches
`unimplemented!()` — a panic — rather than returning a typed
"unsupported kind" error; it never returns success and never silently
skips the object. -/
theorem commit_tag_decode_panics (digits payload : List Nat)
    (hne : digits ≠ []) (hdig : ∀ x ∈ digits, isAsciiDigit x = true)
    (hval : digits.foldl (fun a d => a * 10 + (d - 48)) 0 < 2 ^ 64)
    (hlen : digits.foldl (fun a d => a * 10 + (d - 48)) 0 ≤ payload.length) :
    decodeObject ([99, 111, 109, 109, 105, 116] ++ [32] ++ digits ++ [0] ++ payload)
      = .panic ∧
    decodeObject ([116, 97, 103] ++ [32] ++ digits ++ [0] ++ payload) = .panic := by
  constructor
  · rw [decodeObject_framed _ _ _ (by decide) hne hdig hval]
    have h1 : ¬ payload.length < digits.foldl (fun a d => a * 10 + (d - 48)) 0 := by
      omega
    simp [h1]
  · rw [decodeObject_framed _ _ _ (by decide) hne hdig hval]
    have h1 : ¬ payload.length < digits.foldl (fun a d => a * 10 + (d - 48)) 0 := by
      omega
    simp [h1]

/-- Witness for C6's amended statement at `"commit 0\0"` and `"tag 0\0"`. -/
theorem commit_tag_decode_panics_witness :
    decodeObject ([99, 111, 109, 109, 105, 116] ++ [32] ++ [48] ++ [0] ++ [])
      = .panic ∧
    decodeObject ([116, 97, 103] ++ [32] ++ [48] ++ [0] ++ []) = .panic :=
  commit_tag_decode_panics [48] [] (by decide) (by decide) (by norm_num) (by decide)

/-- C6 (counterexample to the claim as stated): decoding `"commit 0\0"`
does not return the typed unknown/unsupported-kind error — it panics.
Same for `"tag 0\0"`. -/
theorem commit_decode_panic_not_typed_error :
    decodeObject [99, 111, 109, 109, 105, 116, 32, 48, 0] = .panic ∧
    decodeObject [99, 111, 109, 109, 105, 116, 32, 48, 0] ≠ .err .unknownObjectKind ∧
    decodeObject [116, 97, 103, 32, 48, 0] = .panic := by
  decide

/-- C7: the claim is right about non-digit bytes (typed error) but the
code panics on an empty size field (`"blob \0"` hits
`parse().expect(…)` on the empty string) and on an overflowing size
field (twenty nines exceed `u64::MAX`), contradicting the `expect`'s own
justification that the bytes "were checked to be ascii digits". -/
theorem size_field_panics_on_empty_and_overflow :
    decodeObject [98, 108, 111, 98, 32, 0] = .panic ∧
    decodeObject ([98, 108, 111, 98, 32] ++ List.replicate 20 57 ++ [0]) = .panic ∧
    decodeObject [98, 108, 111, 98, 32, 120, 48, 0]
      = .err (.corruptedObject "byte after digits isn't null") := by
  decide

/-! ### Tree roundtrip (C4) -/

/-- Byte-wise lexicographic order on names, the order `sort_by_key` uses
for Rust strings. -/
def nameLe : List Nat → List Nat → Bool
  | [], _ => true
  | _ :: _, [] => false
  | x :: xs, y :: ys => if x < y then true else if y < x then false else nameLe xs ys

/-- The encoded tree payload length equals the size field `encode_tree`
declares, provided every hash is 20 bytes. -/
theorem treePayload_length (E : List TreeEntry)
    (h20 : ∀ e ∈ E, e.objectHash.length = 20) :
    (treePayload E).length = encodeTreeSize E := by
  induction E with
  | nil => simp [treePayload, encodeTreeSize]
  | cons e E ih =>
    have he : e.objectHash.length = 20 := h20 e (by simp)
    have hi := ih (fun x hx => h20 x (by simp [hx]))
    simp [treePayload, encodeTreeSize, treeEntryText] at *
    omega

/-- The tree-entry loop of `decode_object` inverts `treePayload` on any
nonempty well-formed entry list, appending the parsed entries to the
accumulator in order. -/
theorem parseTreeEntries_treePayload (E : List TreeEntry) :
    ∀ acc, E ≠ [] →
    (∀ e ∈ E, e.mode < 2 ^ 32 ∧ isValidUtf8 e.name = true ∧
      (∀ x ∈ e.name, x ≠ 0) ∧ e.objectHash.length = 20) →
    parseTreeEntries (treePayload E) acc = .ok (.tree (acc ++ E)) := by
  induction E with
  | nil => exact fun acc h => absurd rfl h
  | cons e E ih =>
    intro acc _ hwf
    obtain ⟨hmode, hutf, hnul0, hhash⟩ := hwf e (by simp)
    have hoct := octalDigits_all_octal e.mode
    have hshape : treePayload (e :: E)
        = octalDigits e.mode ++ 32 :: (e.name ++ 0 :: (e.objectHash ++ treePayload E)) := by
      simp [treePayload, treeEntryText]
    have hpos : position (fun x => x == 32) (treePayload (e :: E))
        = some (octalDigits e.mode).length := by
      rw [hshape]
      refine position_append_cons_true _ _ _ _ (fun x hx => ?_) (by decide)
      have := hoct x hx
      simp at this ⊢
      omega
    have htake : (treePayload (e :: E)).take (octalDigits e.mode).length
        = octalDigits e.mode := by
      rw [hshape]
      exact List.take_left' rfl
    have hdrop : (treePayload (e :: E)).drop ((octalDigits e.mode).length + 1)
        = e.name ++ 0 :: (e.objectHash ++ treePayload E) := by
      rw [hshape]
      have h : octalDigits e.mode ++ 32 :: (e.name ++ 0 :: (e.objectHash ++ treePayload E))
          = (octalDigits e.mode ++ [32])
            ++ (e.name ++ 0 :: (e.objectHash ++ treePayload E)) := by simp
      rw [h]
      exact List.drop_left' (by simp)
    have hhead : ¬ (octalDigits e.mode).head? = some 43 := by
      cases hoc : octalDigits e.mode with
      | nil => simp
      | cons d ds =>
        have := hoct d (by rw [hoc]; simp)
        simp at this ⊢
        omega
    have hne2 : (octalDigits e.mode).isEmpty = false := by
      cases hoc : octalDigits e.mode with
      | nil => exact absurd hoc (octalDigits_ne_nil _)
      | cons d ds => simp
    have hall : (octalDigits e.mode).all (fun d => 48 ≤ d && d ≤ 55) = true :=
      List.all_eq_true.mpr hoct
    have hfold : (octalDigits e.mode).foldl (fun a d => a * 8 + (d - 48)) 0 = e.mode :=
      octalDigits_foldl e.mode
    have hlen1 : ¬ (treePayload (e :: E)).length < (octalDigits e.mode).length + 1 := by
      rw [hshape]
      simp
    have hposn : position (fun x => x == 0) (e.name ++ 0 :: (e.objectHash ++ treePayload E))
        = some e.name.length := by
      refine position_append_cons_true _ _ _ _ (fun x hx => ?_) (by decide)
      simp [hnul0 x hx]
    have htaken : (e.name ++ 0 :: (e.objectHash ++ treePayload E)).take e.name.length
        = e.name := List.take_left' rfl
    have hdropn : (e.name ++ 0 :: (e.objectHash ++ treePayload E)).drop (e.name.length + 1)
        = e.objectHash ++ treePayload E := by
      have h : e.name ++ 0 :: (e.objectHash ++ treePayload E)
          = (e.name ++ [0]) ++ (e.objectHash ++ treePayload E) := by simp
      rw [h]
      exact List.drop_left' (by simp)
    have hlen2 : ¬ (e.name ++ 0 :: (e.objectHash ++ treePayload E)).length
        < e.name.length + 1 := by
      simp
    have htake20 : (e.objectHash ++ treePayload E).take 20 = e.objectHash :=
      List.take_left' hhash
    have hlen20 : ¬ (e.objectHash ++ treePayload E).length < 20 := by
      simp [hhash]
    have hutf2 : ¬ isValidUtf8 e.name = false := by simp [hutf]
    have heta : (⟨e.mode, e.name, e.objectHash⟩ : TreeEntry) = e := rfl
    rw [parseTreeEntries.eq_def]
    simp only [hpos, htake, hdrop, hposn, htaken, hdropn, htake20, hfold]
    rw [if_neg hhead]
    simp only [hne2, hall, hfold, hmode, and_true, eq_self_iff_true, if_true, hlen1,
      if_false, hutf2, hlen2, hlen20, htake20, heta]
    by_cases hE : E = []
    · subst hE
      have hno : ¬ 20 < (e.objectHash ++ treePayload []).length := by
        simp [treePayload, hhash]
      simp [hno, treePayload, hmode, hhash, heta]
    · have hlenE : 0 < (treePayload E).length := by
        cases E with
        | nil => exact absurd rfl hE
        | cons e2 E2 => simp [treePayload, treeEntryText]
      have hgo : 20 < (e.objectHash ++ treePayload E).length := by
        simp [hhash]
        omega
      have hdrop20 : (e.objectHash ++ treePayload E).drop 20 = treePayload E :=
        List.drop_left' hhash
      rw [dif_pos hgo, hdrop20, ih (acc ++ [e]) hE (fun x hx => hwf x (by simp [hx]))]
      simp

/-- C4 (amended): for every nonempty sorted list of well-formed tree
entries (32-bit mode, NUL-free UTF-8 name, 20-byte hash, total encoded
size within `u64`), decoding the framing produced by `encode_tree`
succeeds and yields the same entries in the same order.  (The empty list
does not roundtrip — see the counterexample.) -/
theorem tree_roundtrip (E : List TreeEntry) (hne : E ≠ [])
    (_hsorted : List.Pairwise (fun a b => nameLe a.name b.name = true) E)
    (hwf : ∀ e ∈ E, e.mode < 2 ^ 32 ∧ isValidUtf8 e.name = true ∧
      (∀ x ∈ e.name, x ≠ 0) ∧ e.objectHash.length = 20)
    (hsize : encodeTreeSize E < 2 ^ 64) :
    decodeObject (encodeObject (.tree E)) = .ok (.tree E) := by
  have hlen : (treePayload E).length = encodeTreeSize E :=
    treePayload_length E (fun e he => (hwf e he).2.2.2)
  have he : encodeObject (.tree E)
      = [116, 114, 101, 101] ++ [32] ++ decimalDigits (encodeTreeSize E) ++ [0]
        ++ treePayload E := rfl
  rw [he, decodeObject_framed _ _ _ (by decide) (decimalDigits_ne_nil _)
    (decimalDigits_all_digit _) (by rw [decimalDigits_foldl]; exact hsize)]
  rw [decimalDigits_foldl]
  have h1 : ¬ (treePayload E).length < encodeTreeSize E := by omega
  have h2 : (treePayload E).take (encodeTreeSize E) = treePayload E := by
    rw [← hlen, List.take_length]
  simp only [h1, if_false, h2]
  rw [if_neg (by decide), if_neg (by decide), if_neg (by decide), if_pos True.intro]
  exact parseTreeEntries_treePayload E [] hne hwf

/-- C4 (counterexample to the claim as stated): the empty entry list is
encoded as `"tree 0\0"`, whose empty payload makes the decoder's entry
loop fail to find a space, so decode returns `CorruptedTreeEntry` instead
of the empty tree. -/
theorem tree_empty_roundtrip_fails :
    decodeObject (encodeObject (.tree [])) = .err .corruptedTreeEntry := by
  have h0 : decimalDigits 0 = [48] := by rw [decimalDigits]; norm_num
  have he : encodeObject (.tree [])
      = [116, 114, 101, 101] ++ [32] ++ [48] ++ [0] ++ [] := by
    simp [encodeObject, encodeTree, encodeTreeSize, treePayload, h0]
  rw [he, decodeObject_framed _ _ _ (by decide) (by simp) (by decide) (by norm_num)]
  simp only [List.length_nil]
  rw [if_neg (by norm_num)]
  rw [if_neg (by decide), if_neg (by decide), if_neg (by decide), if_pos True.intro]
  rw [parseTreeEntries.eq_def]
  simp [position]

/-- Witness for C4's amended statement at a one-entry tree. -/
theorem tree_roundtrip_witness :
    decodeObject (encodeObject (.tree [⟨5, [97], List.replicate 20 7⟩]))
      = .ok (.tree [⟨5, [97], List.replicate 20 7⟩]) :=
  tree_roundtrip [⟨5, [97], List.replicate 20 7⟩] (by simp) (by simp)
    (by intro e he; simp at he; subst he; exact ⟨by norm_num, by decide, by decide, by simp⟩)
    (by
      have h5 : octalDigits 5 = [53] := by rw [octalDigits]; norm_num
      simp [encodeTreeSize, treeEntryText, h5])

/-! ## Tree builder (`read_tree_from_dir`, src/main.rs) -/

/-- A modelled filesystem subtree.  `Except Unit` injects the I/O
failures the source handles: a file's contents carry the result of
`fs::read` (used by `hash_object`), a directory's listing the result of
`fs::read_dir`, and each listing element the per-item `Result` of the
`ReadDir` iterator.  A child is a (file-name bytes, node) pair; modes
come from `metadata().mode()`. -/
inductive FSTree where
  | file (contents : Except Unit (List Nat)) (mode : Nat)
  | dir (listing : Except Unit (List (Except Unit (List Nat × FSTree)))) (mode : Nat)

/-- Result of the child-processing loop. -/
inductive ChildrenResult where
  | ok (entries : List TreeEntry)
  | err
  | panic
deriving DecidableEq

/-- Result of `read_tree_from_dir`: the tree's hash and the directory's
own mode, an error, or a panic. -/
inductive WalkResult where
  | ok (hash : List Nat) (mode : Nat)
  | err
  | panic
deriving DecidableEq

/-- `hash_git_object`: encode the object and SHA-1 the encoded bytes.
The `persist` branch only writes the compressed bytes to the store and
never changes the returned hash, so the pure model is the hash alone. -/
def hashGitObject (obj : GitObject) : List Nat := sha1 (encodeObject obj)

/-- The ordering `entries.sort_by_key(|e| e.name.clone())` sorts by. -/
def entryLeP (a b : TreeEntry) : Prop := nameLe a.name b.name = true

instance : DecidableRel entryLeP := fun _ _ => instDecidableEqBool _ _

/-- `slice::sort_by_key` is a stable sort; all stable sorts compute the
same output, so the stable `List.insertionSort` models it exactly. -/
def sortEntries (l : List TreeEntry) : List TreeEntry := List.insertionSort entryLeP l

mutual
/-- `read_tree_from_dir`: enumerate the directory (a `read_dir` failure,
or being called on a non-directory, is a fatal error for the call),
process the children, sort the collected entries by name, hash the tree
object, and return the tree's hash together with the directory's own
mode. -/
def readTreeFromDir : FSTree → WalkResult
  | .file _ _ => .err
  | .dir (.error _) _ => .err
  | .dir (.ok listing) m =>
    match processChildren listing with
    | .err => .err
    | .panic => .panic
    | .ok entries => .ok (hashGitObject (.tree (sortEntries entries))) m

/-- The per-child loop of `read_tree_from_dir`: a failed `ReadDir` item
is logged (`eprintln!`) and skipped; a non-UTF-8 name panics
(`to_str().unwrap()`); a dot-prefixed name is skipped; a file child is
read — a read failure aborts the whole walk via `?` — and contributes a
blob entry with the file's mode; any other child is recursed into — a
failure again aborts via `?` — and contributes the returned mode and
hash. -/
def processChildren : List (Except Unit (List Nat × FSTree)) → ChildrenResult
  | [] => .ok []
  | .error _ :: rest => processChildren rest
  | .ok (name, node) :: rest =>
    if isValidUtf8 name = false then .panic
    else if name.head? = some 46 then processChildren rest
    else
      match node with
      | .file (.error _) _ => .err
      | .file (.ok contents) fmode =>
        match processChildren rest with
        | .err => .err
        | .panic => .panic
        | .ok es => .ok (⟨fmode, name, hashGitObject (.blob contents)⟩ :: es)
      | .dir listing2 dmode =>
        match readTreeFromDir (.dir listing2 dmode) with
        | .err => .err
        | .panic => .panic
        | .ok h dm =>
          match processChildren rest with
          | .err => .err
          | .panic => .panic
          | .ok es => .ok (⟨dm, name, h⟩ :: es)
end

/-- C8 (counterexample to the claim as stated): a directory whose single
child is a file whose contents cannot be read — the walk aborts with an
error instead of skipping the child and returning a digest. -/
theorem child_read_error_aborts_walk :
    readTreeFromDir (.dir (.ok [.ok ([97], .file (.error ()) 33188)]) 16877)
      = .err := by
  have h : isValidUtf8 [97] = true := by decide
  rw [readTreeFromDir, processChildren]
  simp [h]

/-- The child loop ignores failed `ReadDir` items entirely: processing a
listing equals processing its successfully-enumerated items. -/
theorem processChildren_skips_errors (l : List (Except Unit (List Nat × FSTree))) :
    processChildren (l.filter (fun c => c.isOk)) = processChildren l := by
  induction l with
  | nil => simp
  | cons c rest ih =>
    cases c with
    | error e =>
      rw [processChildren]
      simpa [Except.isOk, Except.toBool] using ih
    | ok p =>
      obtain ⟨name, node⟩ := p
      have hf : List.filter (fun c => c.isOk) (Except.ok (name, node) :: rest)
          = Except.ok (name, node) :: List.filter (fun c => c.isOk) rest := rfl
      rw [hf,
          processChildren.eq_def (Except.ok (name, node) :: List.filter (fun c => c.isOk) rest),
          processChildren.eq_def (Except.ok (name, node) :: rest)]
      dsimp only
      rw [ih]

/-- C8 (amended): a failed enumeration item for a single child is skipped
(the walk's result is the same as on the listing with the failed items
removed) and a failure to read the top-level directory — or calling the
walk on a non-directory — is a fatal error; but a failure to read a
child FILE's contents aborts the whole walk with an error rather than
skipping that child. -/
theorem walk_error_policy :
    (∀ l m, readTreeFromDir (.dir (.ok (l.filter (fun c => c.isOk))) m)
      = readTreeFromDir (.dir (.ok l) m)) ∧
    (∀ e m, readTreeFromDir (.dir (.error e) m) = .err) ∧
    (∀ c m, readTreeFromDir (.file c m) = .err) ∧
    (∀ name fm rest m, isValidUtf8 name = true → ¬ name.head? = some 46 →
      readTreeFromDir (.dir (.ok (.ok (name, .file (.error ()) fm) :: rest)) m)
        = .err) := by
  refine ⟨fun l m => ?_, fun e m => by rw [readTreeFromDir.eq_def],
    fun c m => by rw [readTreeFromDir.eq_def],
    fun name fm rest m hv hdot => ?_⟩
  · rw [readTreeFromDir.eq_def (FSTree.dir (.ok (l.filter (fun c => c.isOk))) m),
        readTreeFromDir.eq_def (FSTree.dir (.ok l) m)]
    dsimp only
    rw [processChildren_skips_errors]
  · rw [readTreeFromDir.eq_def]
    dsimp only
    rw [processChildren.eq_def]
    dsimp only
    simp [hv, hdot]

/-- Witness for C8's amended statement at concrete inputs. -/
theorem walk_error_policy_witness :
    readTreeFromDir (.dir (.ok ([.error ()].filter (fun c => c.isOk))) 0)
      = readTreeFromDir (.dir (.ok [.error ()]) 0) ∧
    readTreeFromDir (.dir (.error ()) 0) = .err ∧
    readTreeFromDir (.file (.ok []) 0) = .err ∧
    readTreeFromDir (.dir (.ok [.ok ([97], .file (.error ()) 33188)]) 16877)
      = .err :=
  ⟨walk_error_policy.1 [.error ()] 0, walk_error_policy.2.1 () 0,
   walk_error_policy.2.2.1 (.ok []) 0,
   walk_error_policy.2.2.2 [97] 33188 [] 16877 (by decide) (by decide)⟩

/-! ### Order lemmas for the name sort -/

theorem nameLe_total : ∀ x y : List Nat, nameLe x y = true ∨ nameLe y x = true := by
  intro x
  induction x with
  | nil => intro y; left; rfl
  | cons a xs ih =>
    intro y
    cases y with
    | nil => right; rfl
    | cons b ys =>
      by_cases hab : a < b
      · left; simp [nameLe, hab]
      · by_cases hba : b < a
        · right; simp [nameLe, hba]
        · have heq : a = b := by omega
          subst heq
          rcases ih ys with h | h
          · left; simp [nameLe, h]
          · right; simp [nameLe, h]

theorem nameLe_antisymm : ∀ x y : List Nat,
    nameLe x y = true → nameLe y x = true → x = y := by
  intro x
  induction x with
  | nil =>
    intro y _ h2
    cases y with
    | nil => rfl
    | cons b ys => simp [nameLe] at h2
  | cons a xs ih =>
    intro y h1 h2
    cases y with
    | nil => simp [nameLe] at h1
    | cons b ys =>
      by_cases hab : a < b
      · simp [nameLe, hab, Nat.lt_asymm hab] at h2
      · by_cases hba : b < a
        · simp [nameLe, hab, hba] at h1
        · have he : a = b := by omega
          subst he
          simp [nameLe] at h1 h2
          rw [ih ys h1 h2]

theorem nameLe_trans : ∀ x y z : List Nat,
    nameLe x y = true → nameLe y z = true → nameLe x z = true := by
  intro x
  induction x with
  | nil => intro y z _ _; rfl
  | cons a xs ih =>
    intro y z h1 h2
    cases y with
    | nil => simp [nameLe] at h1
    | cons b ys =>
      cases z with
      | nil => simp [nameLe] at h2
      | cons c zs =>
        by_cases hab : a < b
        · by_cases hbc : b < c
          · simp [nameLe, show a < c by omega]
          · by_cases hcb : c < b
            · simp [nameLe, hcb, Nat.lt_asymm hcb] at h2
            · have : b = c := by omega
              subst this
              simp [nameLe, hab]
        · by_cases hba : b < a
          · simp [nameLe, hab, hba] at h1
          · have he : a = b := by omega
            subst he
            simp [nameLe] at h1
            by_cases hbc : a < c
            · simp [nameLe, hbc]
            · by_cases hcb : c < a
              · simp [nameLe, hcb, Nat.lt_asymm hcb] at h2
              · have he2 : a = c := by omega
                subst he2
                simp [nameLe] at h2 ⊢
                exact ih ys zs h1 h2

instance : IsTotal TreeEntry entryLeP := ⟨fun a b => nameLe_total a.name b.name⟩

instance : IsTrans TreeEntry entryLeP :=
  ⟨fun a b c => nameLe_trans a.name b.name c.name⟩

/-- Two sorted lists that are permutations of each other under an
asymmetric pairwise relation are equal. -/
theorem perm_pairwise_asymm_eq {α : Type} {s : α → α → Prop}
    (hasym : ∀ a b, s a b → s b a → False) :
    ∀ (l₁ l₂ : List α), List.Perm l₁ l₂ → l₁.Pairwise s → l₂.Pairwise s → l₁ = l₂ := by
  intro l₁
  induction l₁ with
  | nil =>
    intro l₂ hp _ _
    exact (List.Perm.eq_nil hp.symm).symm
  | cons a t ih =>
    intro l₂ hp h₁ h₂
    cases l₂ with
    | nil => exact absurd hp.eq_nil (by simp)
    | cons b t₂ =>
      rcases List.pairwise_cons.mp h₁ with ⟨ha, hat⟩
      rcases List.pairwise_cons.mp h₂ with ⟨hb, hbt⟩
      have hab : a = b := by
        by_contra hne
        have ha2 : a ∈ b :: t₂ := hp.subset (by simp)
        have hb1 : b ∈ a :: t := hp.symm.subset (by simp)
        have hat2 : a ∈ t₂ := by
          rcases List.mem_cons.mp ha2 with h | h
          · exact absurd h hne
          · exact h
        have hbt1 : b ∈ t := by
          rcases List.mem_cons.mp hb1 with h | h
          · exact absurd h.symm hne
          · exact h
        exact hasym a b (ha b hbt1) (hb a hat2)
      subst hab
      rw [ih t₂ hp.cons_inv hat hbt]

/-- A stable sort of two permuted entry lists with pairwise-distinct
names produces the same list. -/
theorem sortEntries_eq_of_perm (l₁ l₂ : List TreeEntry) (hp : List.Perm l₁ l₂)
    (hn : (l₁.map TreeEntry.name).Nodup) :
    sortEntries l₁ = sortEntries l₂ := by
  have hs₁ : (sortEntries l₁).Pairwise entryLeP :=
    List.sorted_insertionSort entryLeP l₁
  have hs₂ : (sortEntries l₂).Pairwise entryLeP :=
    List.sorted_insertionSort entryLeP l₂
  have hperm : List.Perm (sortEntries l₁) (sortEntries l₂) :=
    (List.perm_insertionSort _ l₁).trans (hp.trans (List.perm_insertionSort _ l₂).symm)
  have hn₁ : ((sortEntries l₁).map TreeEntry.name).Nodup :=
    (((List.perm_insertionSort entryLeP l₁).map TreeEntry.name).symm).nodup hn
  have hn₂ : ((sortEntries l₂).map TreeEntry.name).Nodup :=
    ((hperm.map TreeEntry.name)).nodup hn₁
  have hstrict : ∀ (l : List TreeEntry), l.Pairwise entryLeP →
      (l.map TreeEntry.name).Nodup →
      l.Pairwise (fun a b => entryLeP a b ∧ a.name ≠ b.name) := by
    intro l hle hnd
    exact hle.and (List.pairwise_map.mp hnd)
  have hasym : ∀ a b : TreeEntry,
      (entryLeP a b ∧ a.name ≠ b.name) → (entryLeP b a ∧ b.name ≠ a.name) → False := by
    rintro a b ⟨h1, hne⟩ ⟨h2, _⟩
    exact hne (nameLe_antisymm a.name b.name h1 h2)
  exact perm_pairwise_asymm_eq hasym _ _ hperm
    (hstrict _ hs₁ hn₁) (hstrict _ hs₂ hn₂)

/-! ### Permutation invariance of the tree builder (C5) -/

/-- The mode `read_tree_from_dir` reads from a node's metadata. -/
def nodeMode : FSTree → Nat
  | .file _ m => m
  | .dir _ m => m

/-- The hash contributed by one child: a file's blob hash, or the hash a
recursive walk of a directory returns. -/
def nodeHash : FSTree → List Nat
  | .file (.ok c) _ => hashGitObject (.blob c)
  | .file (.error _) _ => []
  | .dir dl m =>
    match readTreeFromDir (.dir dl m) with
    | .ok h _ => h
    | _ => []

/-- The tree entry a successfully-enumerated child contributes, if any
(dot-prefixed names contribute none). -/
def keptEntry : Except Unit (List Nat × FSTree) → Option TreeEntry
  | .error _ => none
  | .ok (name, node) =>
    if name.head? = some 46 then none
    else some ⟨nodeMode node, name, nodeHash node⟩

/-- The entries a listing contributes, in enumeration order. -/
def listingEntries (l : List (Except Unit (List Nat × FSTree))) : List TreeEntry :=
  l.filterMap keptEntry

/-- The names of the successfully-enumerated children. -/
def listingNames (l : List (Except Unit (List Nat × FSTree))) : List (List Nat) :=
  l.filterMap (fun c => match c with | .ok (n, _) => some n | .error _ => none)

/-- Boolean pairwise-distinctness of a name list. -/
def namesNodup : List (List Nat) → Bool
  | [] => true
  | n :: rest => !(rest.contains n) && namesNodup rest

theorem namesNodup_iff (L : List (List Nat)) : namesNodup L = true ↔ L.Nodup := by
  induction L with
  | nil => simp [namesNodup]
  | cons n rest ih => simp [namesNodup, ih, List.elem_iff]

mutual
/-- A subtree with no injected I/O failures, UTF-8 child names, and (as
on a real filesystem) pairwise-distinct child names at every directory. -/
def goodFS : FSTree → Bool
  | .file (.ok _) _ => true
  | .file (.error _) _ => false
  | .dir (.error _) _ => false
  | .dir (.ok listing) _ => goodListing listing && namesNodup (listingNames listing)

/-- Every child enumerates successfully, has a UTF-8 name, and is itself
good. -/
def goodListing : List (Except Unit (List Nat × FSTree)) → Bool
  | [] => true
  | .error _ :: _ => false
  | .ok (name, node) :: rest => isValidUtf8 name && goodFS node && goodListing rest
end

/-- On a good listing, the child loop succeeds and produces exactly the
per-child entries in enumeration order. -/
theorem processChildren_good :
    ∀ (k : Nat) (l : List (Except Unit (List Nat × FSTree))), sizeOf l ≤ k →
      goodListing l = true → processChildren l = .ok (listingEntries l) := by
  intro k
  induction k using Nat.strong_induction_on with
  | _ k ih =>
    intro l hsz hg
    cases l with
    | nil =>
      rw [processChildren]
      simp [listingEntries]
    | cons c rest =>
      cases c with
      | error e =>
        rw [goodListing.eq_def] at hg
        simp at hg
      | ok p =>
        obtain ⟨name, node⟩ := p
        rw [goodListing.eq_def] at hg
        simp only [Bool.and_eq_true] at hg
        obtain ⟨⟨hv, hgn⟩, hgrest⟩ := hg
        have hvne : ¬ isValidUtf8 name = false := by simp [hv]
        have hszrest : sizeOf rest < k := by
          have : sizeOf (Except.ok (name, node) :: rest) ≤ k := hsz
          simp at this
          omega
        have hrest := ih (sizeOf rest) hszrest rest (Nat.le_refl _) hgrest
        by_cases hdot : name.head? = some 46
        · rw [processChildren.eq_def]
          simp only [hvne, if_false, hdot, if_true]
          rw [hrest]
          simp [listingEntries, keptEntry, hdot]
        · cases node with
          | file fc fm =>
            cases fc with
            | error e =>
              rw [goodFS.eq_def] at hgn
              simp at hgn
            | ok contents =>
              rw [processChildren.eq_def]
              simp only [hvne, if_false, hdot, if_true]
              rw [hrest]
              simp [listingEntries, keptEntry, hdot, nodeMode, nodeHash]
          | dir dl dmode =>
            cases dl with
            | error e =>
              rw [goodFS.eq_def] at hgn
              simp at hgn
            | ok l2 =>
              have hszl2 : sizeOf l2 < k := by
                have : sizeOf (Except.ok (name, FSTree.dir (Except.ok l2) dmode) :: rest)
                    ≤ k := hsz
                simp at this
                omega
              have hgl2 : goodListing l2 = true := by
                rw [goodFS.eq_def] at hgn
                simp at hgn
                exact hgn.1
              have hl2 := ih (sizeOf l2) hszl2 l2 (Nat.le_refl _) hgl2
              have hread : readTreeFromDir (.dir (.ok l2) dmode)
                  = .ok (hashGitObject (.tree (sortEntries (listingEntries l2)))) dmode := by
                rw [readTreeFromDir, hl2]
              rw [processChildren.eq_def]
              simp only [hvne, if_false, hdot, if_true]
              rw [hread, hrest]
              simp [listingEntries, keptEntry, hdot, nodeMode, nodeHash, hread]

/-- On a good directory, the walk succeeds with the hash of the sorted
per-child entries and the directory's own mode. -/
theorem readTreeFromDir_good (listing : List (Except Unit (List Nat × FSTree)))
    (m : Nat) (hg : goodFS (.dir (.ok listing) m) = true) :
    readTreeFromDir (.dir (.ok listing) m)
      = .ok (hashGitObject (.tree (sortEntries (listingEntries listing)))) m := by
  rw [goodFS.eq_def] at hg
  simp only [Bool.and_eq_true] at hg
  rw [readTreeFromDir, processChildren_good (sizeOf listing) listing (Nat.le_refl _) hg.1]

/-- Listing order used only to define the canonical view of a directory
(errors first, then by name). -/
def childLeP (a b : Except Unit (List Nat × FSTree)) : Prop :=
  (match a, b with
   | .error _, _ => true
   | .ok _, .error _ => false
   | .ok (n1, _), .ok (n2, _) => nameLe n1 n2) = true

instance : DecidableRel childLeP := fun _ _ => instDecidableEqBool _ _

mutual
/-- The canonical (recursively name-sorted) view of a subtree.  Two good
trees are the same directory contents enumerated in different orders at
each level exactly when their canonical views are equal. -/
def canonFS : FSTree → FSTree
  | .file c m => .file c m
  | .dir (.error e) m => .dir (.error e) m
  | .dir (.ok listing) m =>
    .dir (.ok (List.insertionSort childLeP (canonListing listing))) m

/-- Canonicalize every child of a listing. -/
def canonListing : List (Except Unit (List Nat × FSTree)) →
    List (Except Unit (List Nat × FSTree))
  | [] => []
  | .error e :: rest => .error e :: canonListing rest
  | .ok (n, t) :: rest => .ok (n, canonFS t) :: canonListing rest
end

theorem nodeMode_canon (t : FSTree) : nodeMode (canonFS t) = nodeMode t := by
  cases t with
  | file fc m => rw [canonFS.eq_def]
  | dir dl m =>
    cases dl with
    | error e => rw [canonFS.eq_def]
    | ok l =>
      rw [canonFS.eq_def]
      rfl

theorem nodeHash_canon (t : FSTree)
    (h : readTreeFromDir (canonFS t) = readTreeFromDir t) :
    nodeHash (canonFS t) = nodeHash t := by
  cases t with
  | file fc m => rw [canonFS.eq_def]
  | dir dl m =>
    cases dl with
    | error e => rw [canonFS.eq_def]
    | ok l =>
      have hc : canonFS (.dir (.ok l) m)
          = .dir (.ok (List.insertionSort childLeP (canonListing l))) m := by
        rw [canonFS.eq_def]
      rw [hc] at h ⊢
      simp [nodeHash, h]

/-- Child goodness as a single predicate (for permutation transfer). -/
def childGood : Except Unit (List Nat × FSTree) → Bool
  | .error _ => false
  | .ok (name, node) => isValidUtf8 name && goodFS node

theorem goodListing_iff_forall (l : List (Except Unit (List Nat × FSTree))) :
    goodListing l = true ↔ ∀ c ∈ l, childGood c = true := by
  induction l with
  | nil =>
    rw [goodListing]
    simp
  | cons c rest ih =>
    cases c with
    | error e =>
      rw [goodListing.eq_def]
      simp [childGood]
    | ok p =>
      obtain ⟨n, t⟩ := p
      rw [goodListing.eq_def]
      simp [childGood, ih, Bool.and_eq_true, and_assoc]

/-- The kept entry names form a sublist of the enumerated child names. -/
theorem listingEntries_names_sublist (l : List (Except Unit (List Nat × FSTree))) :
    List.Sublist ((listingEntries l).map TreeEntry.name) (listingNames l) := by
  induction l with
  | nil => simp [listingEntries, listingNames]
  | cons c rest ih =>
    cases c with
    | error e => simpa [listingEntries, listingNames, keptEntry] using ih
    | ok p =>
      obtain ⟨n, t⟩ := p
      by_cases hdot : n.head? = some 46
      · simp only [listingEntries, listingNames, List.filterMap_cons, keptEntry, hdot,
          if_true]
        exact ih.trans (List.sublist_cons_self n _)
      · simp only [listingEntries, listingNames, List.filterMap_cons, keptEntry, hdot,
          if_false, List.map_cons]
        exact List.Sublist.cons₂ n ih

/-- Canonicalizing a good subtree preserves goodness and the walk
result. -/
theorem readTreeFromDir_canon :
    ∀ (k : Nat) (t : FSTree), sizeOf t ≤ k → goodFS t = true →
      goodFS (canonFS t) = true ∧ readTreeFromDir (canonFS t) = readTreeFromDir t := by
  intro k
  induction k using Nat.strong_induction_on with
  | _ k ih =>
    intro t hsz hg
    cases t with
    | file fc m =>
      have hc : canonFS (.file fc m) = .file fc m := by rw [canonFS.eq_def]
      rw [hc]
      exact ⟨hg, rfl⟩
    | dir dl m =>
      cases dl with
      | error e =>
        rw [goodFS.eq_def] at hg
        simp at hg
      | ok l =>
        have hszl : sizeOf l < k := by
          simp at hsz
          omega
        have aux : ∀ (q : List (Except Unit (List Nat × FSTree))),
            sizeOf q ≤ sizeOf l → goodListing q = true →
            goodListing (canonListing q) = true ∧
            listingEntries (canonListing q) = listingEntries q ∧
            listingNames (canonListing q) = listingNames q := by
          intro q
          induction q with
          | nil =>
            intro _ _
            rw [canonListing]
            exact ⟨by rw [goodListing], rfl, rfl⟩
          | cons c rest ihl =>
            intro hsz' hg'
            cases c with
            | error e =>
              rw [goodListing.eq_def] at hg'
              simp at hg'
            | ok p =>
              obtain ⟨n, t⟩ := p
              rw [goodListing.eq_def] at hg'
              simp only [Bool.and_eq_true] at hg'
              obtain ⟨⟨hvn, hgt⟩, hgrest⟩ := hg'
              have hszrest : sizeOf rest ≤ sizeOf l := by
                simp at hsz'
                omega
              have hszt : sizeOf t < k := by
                simp at hsz'
                omega
              obtain ⟨hgc, hrc⟩ := ih (sizeOf t) hszt t (Nat.le_refl _) hgt
              have hmode := nodeMode_canon t
              have hhash := nodeHash_canon t hrc
              obtain ⟨h1, h2, h3⟩ := ihl hszrest hgrest
              have hcl : canonListing (Except.ok (n, t) :: rest)
                  = Except.ok (n, canonFS t) :: canonListing rest := by
                rw [canonListing.eq_def]
              rw [hcl]
              refine ⟨?_, ?_, ?_⟩
              · rw [goodListing.eq_def]
                simp [hvn, hgc, h1]
              · simp only [listingEntries] at h2 ⊢
                simp only [List.filterMap_cons, keptEntry, hmode, hhash, h2]
              · simp only [listingNames] at h3 ⊢
                simp only [List.filterMap_cons, h3]
        have hgl : goodListing l = true ∧ namesNodup (listingNames l) = true := by
          rw [goodFS.eq_def] at hg
          simpa using hg
        obtain ⟨hgl1, hnd⟩ := hgl
        obtain ⟨hcg, hce, hcn⟩ := aux l (Nat.le_refl _) hgl1
        have hpermL : List.Perm (List.insertionSort childLeP (canonListing l))
            (canonListing l) := List.perm_insertionSort _ _
        have hgood' : goodListing (List.insertionSort childLeP (canonListing l)) = true := by
          rw [goodListing_iff_forall] at hcg ⊢
          intro c hc
          exact hcg c (hpermL.subset hc)
        have hperm2 : List.Perm
            (listingNames (List.insertionSort childLeP (canonListing l)))
            (listingNames l) := by
          have h1 := hpermL.filterMap
            (fun c => match c with | .ok (n, _) => some n | .error _ => none)
          rw [show (canonListing l).filterMap
              (fun c => match c with | .ok (n, _) => some n | .error _ => none)
              = listingNames (canonListing l) from rfl] at h1
          rw [hcn] at h1
          exact h1
        have hnd' : namesNodup
            (listingNames (List.insertionSort childLeP (canonListing l))) = true := by
          rw [namesNodup_iff] at hnd ⊢
          exact hperm2.symm.nodup hnd
        have hentperm : List.Perm
            (listingEntries (List.insertionSort childLeP (canonListing l)))
            (listingEntries l) := by
          have h1 := hpermL.filterMap keptEntry
          rw [show (canonListing l).filterMap keptEntry
              = listingEntries (canonListing l) from rfl] at h1
          rw [hce] at h1
          exact h1
        have hnodupE : ((listingEntries l).map TreeEntry.name).Nodup :=
          (listingEntries_names_sublist l).nodup ((namesNodup_iff _).mp hnd)
        have hGoodCanonDir : goodFS
            (.dir (.ok (List.insertionSort childLeP (canonListing l))) m) = true := by
          rw [goodFS.eq_def]
          simp [hgood', hnd']
        have hwalk1 := readTreeFromDir_good _ m hGoodCanonDir
        have hwalk2 := readTreeFromDir_good l m hg
        have hsorteq : sortEntries
            (listingEntries (List.insertionSort childLeP (canonListing l)))
            = sortEntries (listingEntries l) :=
          sortEntries_eq_of_perm _ _ hentperm
            ((hentperm.map TreeEntry.name).symm.nodup hnodupE)
        have hcanon : canonFS (.dir (.ok l) m)
            = .dir (.ok (List.insertionSort childLeP (canonListing l))) m := by
          rw [canonFS.eq_def]
        rw [hcanon]
        exact ⟨hGoodCanonDir, by rw [hwalk1, hwalk2, hsorteq]⟩

/-- C5: on good filesystem subtrees (no read failures, UTF-8 names,
distinct sibling names) the tree builder's result depends only on the
directory contents, not on the enumeration order: any two trees with the
same canonical (recursively name-sorted) view produce the identical walk
result, because entries are sorted by name before hashing. -/
theorem walk_enumeration_order_irrelevant (t₁ t₂ : FSTree)
    (h₁ : goodFS t₁ = true) (h₂ : goodFS t₂ = true)
    (hc : canonFS t₁ = canonFS t₂) :
    readTreeFromDir t₁ = readTreeFromDir t₂ := by
  have e₁ := (readTreeFromDir_canon (sizeOf t₁) t₁ (Nat.le_refl _) h₁).2
  have e₂ := (readTreeFromDir_canon (sizeOf t₂) t₂ (Nat.le_refl _) h₂).2
  rw [← e₁, hc, e₂]

theorem canonFS_file (c : Except Unit (List Nat)) (m : Nat) :
    canonFS (.file c m) = .file c m := by rw [canonFS.eq_def]

theorem canonFS_dir_ok (l : List (Except Unit (List Nat × FSTree))) (m : Nat) :
    canonFS (.dir (.ok l) m)
      = .dir (.ok (List.insertionSort childLeP (canonListing l))) m := by
  rw [canonFS.eq_def]

theorem canonListing_nil : canonListing [] = [] := by rw [canonListing]

theorem canonListing_cons_ok (n : List Nat) (t : FSTree)
    (rest : List (Except Unit (List Nat × FSTree))) :
    canonListing (.ok (n, t) :: rest) = .ok (n, canonFS t) :: canonListing rest := by
  rw [canonListing.eq_def]

theorem goodFS_file_ok (c : List Nat) (m : Nat) :
    goodFS (.file (.ok c) m) = true := by rw [goodFS.eq_def]

theorem goodFS_dir_ok (l : List (Except Unit (List Nat × FSTree))) (m : Nat) :
    goodFS (.dir (.ok l) m) = (goodListing l && namesNodup (listingNames l)) := by
  rw [goodFS.eq_def]

theorem goodListing_nil : goodListing [] = true := by rw [goodListing]

theorem goodListing_cons_ok (n : List Nat) (t : FSTree)
    (rest : List (Except Unit (List Nat × FSTree))) :
    goodListing (.ok (n, t) :: rest)
      = (isValidUtf8 n && goodFS t && goodListing rest) := by
  rw [goodListing.eq_def]

/-- Witness for C5: two directories with the same two files enumerated in
opposite orders give the same walk result. -/
theorem walk_enumeration_order_irrelevant_witness :
    goodFS (.dir (.ok [.ok ([98], .file (.ok [1]) 33188),
                       .ok ([97], .file (.ok [2]) 33188)]) 16877) = true ∧
    goodFS (.dir (.ok [.ok ([97], .file (.ok [2]) 33188),
                       .ok ([98], .file (.ok [1]) 33188)]) 16877) = true ∧
    canonFS (.dir (.ok [.ok ([98], .file (.ok [1]) 33188),
                        .ok ([97], .file (.ok [2]) 33188)]) 16877)
      = canonFS (.dir (.ok [.ok ([97], .file (.ok [2]) 33188),
                            .ok ([98], .file (.ok [1]) 33188)]) 16877) ∧
    readTreeFromDir (.dir (.ok [.ok ([98], .file (.ok [1]) 33188),
                                .ok ([97], .file (.ok [2]) 33188)]) 16877)
      = readTreeFromDir (.dir (.ok [.ok ([97], .file (.ok [2]) 33188),
                                    .ok ([98], .file (.ok [1]) 33188)]) 16877) := by
  have hg1 : goodFS (.dir (.ok [.ok ([98], .file (.ok [1]) 33188),
      .ok ([97], .file (.ok [2]) 33188)]) 16877) = true := by
    simp only [goodFS_dir_ok, goodListing_cons_ok, goodListing_nil, goodFS_file_ok]
    decide
  have hg2 : goodFS (.dir (.ok [.ok ([97], .file (.ok [2]) 33188),
      .ok ([98], .file (.ok [1]) 33188)]) 16877) = true := by
    simp only [goodFS_dir_ok, goodListing_cons_ok, goodListing_nil, goodFS_file_ok]
    decide
  have hc : canonFS (.dir (.ok [.ok ([98], .file (.ok [1]) 33188),
      .ok ([97], .file (.ok [2]) 33188)]) 16877)
      = canonFS (.dir (.ok [.ok ([97], .file (.ok [2]) 33188),
      .ok ([98], .file (.ok [1]) 33188)]) 16877) := by
    simp only [canonFS_dir_ok, canonListing_cons_ok, canonListing_nil, canonFS_file]
    rfl
  exact ⟨hg1, hg2, hc, walk_enumeration_order_irrelevant _ _ hg1 hg2 hc⟩

/-! ## Staging index parser (`read_index`, src/main.rs) -/

/-- One fixed-layout staging-index entry. -/
structure IndexEntry where
  ctimeS : Nat
  ctimeN : Nat
  mtimeS : Nat
  mtimeN : Nat
  dev : Nat
  ino : Nat
  mode : Nat
  uid : Nat
  gid : Nat
  size : Nat
  sha1Bytes : List Nat
  flags : Nat
  path : List Nat
deriving DecidableEq

/-- The parsed index file. -/
structure IndexFile where
  sha1Bytes : List Nat
  version : Nat
  entries : List IndexEntry
deriving DecidableEq

/-- The `ReadIndexError` variants reachable from the byte-level parser. -/
inductive ReadIndexError where
  | noIndexHash
  | noIndexHeader
  | invalidSignature
  | noIndexEntries
  | missingEntries (expected got : Nat)
  | noIndexEntryPath
  | corruptedPath
deriving DecidableEq

/-- Outcome of `read_index`. -/
inductive IndexResult where
  | ok (idx : IndexFile)
  | err (e : ReadIndexError)
  | panic
deriving DecidableEq

/-- Outcome of the entry loop. -/
inductive EntriesResult where
  | ok (entries : List IndexEntry)
  | err (e : ReadIndexError)
  | panic
deriving DecidableEq

/-- Big-endian `u32` at byte offset `off` (the source's pointer
reinterpretation plus `to_be`). -/
def beU32 (l : List Nat) (off : Nat) : Nat :=
  l.getD off 0 * 2 ^ 24 + l.getD (off + 1) 0 * 2 ^ 16
    + l.getD (off + 2) 0 * 2 ^ 8 + l.getD (off + 3) 0

/-- Big-endian `u16` at byte offset `off`. -/
def beU16 (l : List Nat) (off : Nat) : Nat :=
  l.getD off 0 * 2 ^ 8 + l.getD (off + 1) 0

/-- The entry loop of `read_index` (`idx` stays 0 in the source; the
slice itself is the cursor): while more than 62 bytes remain, read the 62
fixed bytes, find the NUL terminating the path (error if none), check the
path is UTF-8, then advance by `((62 + path_len + 8) / 8) * 8` bytes —
an unchecked slice index that PANICS when it exceeds the remaining
length. -/
def parseIndexEntries (bytes : List Nat) (acc : List IndexEntry) : EntriesResult :=
  if _h62 : bytes.length ≤ 62 then .ok acc
  else
    let fields := bytes.take 62
    match position (fun x => x == 0) (bytes.drop 62) with
    | none => .err .noIndexEntryPath
    | some nulIdx =>
      let path := (bytes.drop 62).take nulIdx
      if isValidUtf8 path = false then .err .corruptedPath
      else
        let entry : IndexEntry :=
          ⟨beU32 fields 0, beU32 fields 4, beU32 fields 8, beU32 fields 12,
           beU32 fields 16, beU32 fields 20, beU32 fields 24, beU32 fields 28,
           beU32 fields 32, beU32 fields 36, (fields.drop 40).take 20,
           beU16 fields 60, path⟩
        if bytes.length < ((62 + path.length + 8) / 8) * 8 then .panic
        else parseIndexEntries (bytes.drop (((62 + path.length + 8) / 8) * 8))
          (acc ++ [entry])
termination_by bytes.length
decreasing_by
  simp only [List.length_drop]
  omega

/-- `read_index` on the raw index bytes.  The 20 trailing checksum bytes
are sliced first (for a file shorter than 20 bytes the release-mode
`usize` subtraction wraps, the range start exceeds the length and `get`
returns `None`, hence the error), then the 12-byte header, the `DIRC`
signature check, the entry region between header and checksum, then the
entry loop, and finally the declared-count check. -/
def readIndex (index : List Nat) : IndexResult :=
  if index.length < 20 then .err .noIndexHash
  else
    if index.length < 12 then .err .noIndexHeader
    else
      let header := index.take 12
      if header.take 4 ≠ [68, 73, 82, 67] then .err .invalidSignature
      else
        if index.length - 20 < 12 then .err .noIndexEntries
        else
          match parseIndexEntries ((index.take (index.length - 20)).drop 12) [] with
          | .err e => .err e
          | .panic => .panic
          | .ok entries =>
            if entries.length ≠ beU32 header 8 then
              .err (.missingEntries (beU32 header 8) entries.length)
            else .ok ⟨index.drop (index.length - 20), beU32 header 4, entries⟩

/-- A 102-byte index file: `DIRC` signature, version 2, declared entry
count 1, one 70-byte entry region (62 zero fixed bytes, a 7-byte path
"aaaaaaa", its NUL), and a 20-byte trailing checksum.  The entry's padded
length is ((62+7+8)/8)*8 = 72, which exceeds the 70 remaining bytes. -/
def truncatedIndexBytes : List Nat :=
  [68, 73, 82, 67, 0, 0, 0, 2, 0, 0, 0, 1]
    ++ List.replicate 62 0 ++ [97, 97, 97, 97, 97, 97, 97, 0]
    ++ List.replicate 20 0

/-- C9: the claim is the spec's intent, but the code's entry-advance
`&entries_bytes[((62 + path_len + 8) / 8) * 8 ..]` is an unchecked slice
index: on this `DIRC` file with declared count 1, the parser reads one
entry and then PANICS instead of returning (it neither errors nor
succeeds), because the padded entry length 72 exceeds the 70-byte entry
region. -/
theorem read_index_panics_on_truncated_entry :
    readIndex truncatedIndexBytes = .panic ∧
    truncatedIndexBytes.take 4 = [68, 73, 82, 67] ∧
    beU32 (truncatedIndexBytes.take 12) 8 = 1 := by
  have hp : parseIndexEntries
      ((truncatedIndexBytes.take (truncatedIndexBytes.length - 20)).drop 12) []
      = .panic := by
    rw [parseIndexEntries.eq_def]
    decide
  refine ⟨?_, by decide, by decide⟩
  unfold readIndex
  rw [hp]
  decide
